import Mathlib

/-!
Shallow embedding of the open-disk per-user file-storage core
(src/storage/models.py, src/storage/services.py, src/storage/minio_client.py).

Strings are modelled as `List Char`.  Python string primitives (`strip`,
`replace`, `startswith`, `in`, `split`, `rsplit`) are translated into
structurally recursive functions below; each definition's doc comment names
the source construct it embeds.
-/

abbrev Str := List Char

/-- Whitespace removed by Python `str.strip()` (ASCII range). -/
def isPyWs (c : Char) : Bool :=
  c == ' ' || c == '\t' || c == '\n' || c == '\r' || c == '\x0b' || c == '\x0c'

/-- Left part of Python `str.strip` / `str.strip(chars)`: drop the leading
run of characters satisfying `p`. -/
def stripLeft (p : Char → Bool) (s : Str) : Str := s.dropWhile p

/-- Right part of Python `str.strip` / `str.strip(chars)`: drop the trailing
run of characters satisfying `p`. -/
def stripRight (p : Char → Bool) : Str → Str
  | [] => []
  | a :: t =>
    let r := stripRight p t
    if r = [] then (if p a then [] else [a]) else a :: r

/-- Python `s.strip(...)`: remove matching characters from both ends. -/
def pyStripWith (p : Char → Bool) (s : Str) : Str := stripRight p (stripLeft p s)

/-- Python `s.strip()` with no argument. -/
def pyStrip (s : Str) : Str := pyStripWith isPyWs s

/-- Python `s.strip('/')` as used by the path normalizers. -/
def stripSlash (s : Str) : Str := pyStripWith (· == '/') s

/-- Python `s.replace(a, b)` for single-character `a`, `b`. -/
def replaceChar (a b : Char) (s : Str) : Str := s.map fun c => if c == a then b else c

/-- Python `'//' in path`. -/
def hasDoubleSlash : Str → Bool
  | a :: b :: rest => (a == '/' && b == '/') || hasDoubleSlash (b :: rest)
  | _ => false

/-- One execution of Python `path.replace('//', '/')`: replace every
non-overlapping occurrence of `//`, scanning left to right. -/
def squashOnce : Str → Str
  | a :: b :: rest =>
    if a == '/' && b == '/' then '/' :: squashOnce rest
    else a :: squashOnce (b :: rest)
  | s => s

/-- The `while '//' in path: path = path.replace('//', '/')` loop, embedded
with explicit fuel; each iteration strictly shrinks the string, so fuel
equal to the string length always suffices (`squashLoop_noDup`). -/
def squashLoop : Nat → Str → Str
  | 0, s => s
  | n + 1, s => if hasDoubleSlash s then squashLoop n (squashOnce s) else s

/-- Translated from `MinIOClient.normalize_path` (src/storage/minio_client.py
lines 26-38); `Folder._normalize_path` (src/storage/models.py lines 322-334)
has the identical body. -/
def normalize_path (path : Str) : Str :=
  if path = [] then []
  else
    let s1 := pyStrip path
    let s2 := replaceChar '\\' '/' s1
    let s3 := stripSlash s2
    squashLoop s3.length s3

/-! ### Basic lemmas about the string primitives -/

theorem squashOnce_cons_pos (a b : Char) (rest : Str) (hab : (a == '/' && b == '/') = true) :
    squashOnce (a :: b :: rest) = '/' :: squashOnce rest := by
  simp [squashOnce, hab]

theorem squashOnce_cons_neg (a b : Char) (rest : Str) (hab : (a == '/' && b == '/') = false) :
    squashOnce (a :: b :: rest) = a :: squashOnce (b :: rest) := by
  simp [squashOnce, hab]

theorem squashOnce_length_le : ∀ s : Str, (squashOnce s).length ≤ s.length
  | [] => le_refl _
  | [_] => le_refl _
  | a :: b :: rest => by
    cases hab : (a == '/' && b == '/') with
    | true =>
      rw [squashOnce_cons_pos a b rest hab]
      have := squashOnce_length_le rest
      simp only [List.length_cons]; omega
    | false =>
      rw [squashOnce_cons_neg a b rest hab]
      have := squashOnce_length_le (b :: rest)
      simp only [List.length_cons] at *; omega

theorem squashOnce_length_lt : ∀ s : Str, hasDoubleSlash s = true →
    (squashOnce s).length < s.length
  | a :: b :: rest, h => by
    cases hab : (a == '/' && b == '/') with
    | true =>
      rw [squashOnce_cons_pos a b rest hab]
      have := squashOnce_length_le rest
      simp only [List.length_cons]; omega
    | false =>
      rw [squashOnce_cons_neg a b rest hab]
      have hd : hasDoubleSlash (b :: rest) = true := by
        simp only [hasDoubleSlash, hab, Bool.false_or] at h; exact h
      have := squashOnce_length_lt (b :: rest) hd
      simp only [List.length_cons] at *; omega

theorem squashLoop_noDup : ∀ (n : Nat) (s : Str), s.length ≤ n →
    hasDoubleSlash (squashLoop n s) = false
  | 0, s, h => by
    have hs : s = [] := List.eq_nil_of_length_eq_zero (Nat.le_zero.mp h)
    subst hs; rfl
  | n + 1, s, h => by
    cases hd : hasDoubleSlash s with
    | false => simp [squashLoop, hd]
    | true =>
      have hlt := squashOnce_length_lt s hd
      have : (squashOnce s).length ≤ n := by omega
      simpa [squashLoop, hd] using squashLoop_noDup n (squashOnce s) this

theorem squashLoop_eq_self (n : Nat) (s : Str) (h : hasDoubleSlash s = false) :
    squashLoop n s = s := by
  cases n with
  | zero => rfl
  | succ m => simp [squashLoop, h]

theorem mem_squashOnce : ∀ (s : Str) (c : Char), c ∈ squashOnce s → c ∈ s
  | [], _, h => h
  | [_], _, h => h
  | a :: b :: rest, c, h => by
    cases hab : (a == '/' && b == '/') with
    | true =>
      rw [squashOnce_cons_pos a b rest hab] at h
      rcases List.mem_cons.mp h with h | h
      · subst h
        have : a = '/' := eq_of_beq ((Bool.and_eq_true _ _).mp hab).1
        simp [this]
      · exact List.mem_cons_of_mem _ (List.mem_cons_of_mem _ (mem_squashOnce rest c h))
    | false =>
      rw [squashOnce_cons_neg a b rest hab] at h
      rcases List.mem_cons.mp h with h | h
      · simp [h]
      · exact List.mem_cons_of_mem _ (mem_squashOnce (b :: rest) c h)

theorem mem_squashLoop : ∀ (n : Nat) (s : Str) (c : Char), c ∈ squashLoop n s → c ∈ s
  | 0, _, _, h => h
  | n + 1, s, c, h => by
    cases hd : hasDoubleSlash s with
    | false => simpa [squashLoop, hd] using h
    | true =>
      simp only [squashLoop, hd, if_true] at h
      exact mem_squashOnce s c (mem_squashLoop n (squashOnce s) c h)

theorem squashOnce_ne_nil (s : Str) (hs : s ≠ []) : squashOnce s ≠ [] := by
  match s with
  | [] => exact absurd rfl hs
  | [c] => simp [squashOnce]
  | a :: b :: rest =>
    cases hab : (a == '/' && b == '/') with
    | true => rw [squashOnce_cons_pos a b rest hab]; simp
    | false => rw [squashOnce_cons_neg a b rest hab]; simp

theorem squashOnce_head? : ∀ s : Str, (squashOnce s).head? = s.head?
  | [] => rfl
  | [_] => rfl
  | a :: b :: rest => by
    cases hab : (a == '/' && b == '/') with
    | true =>
      rw [squashOnce_cons_pos a b rest hab]
      have : a = '/' := eq_of_beq ((Bool.and_eq_true _ _).mp hab).1
      simp [this]
    | false =>
      rw [squashOnce_cons_neg a b rest hab]
      simp

theorem squashLoop_head? : ∀ (n : Nat) (s : Str), (squashLoop n s).head? = s.head?
  | 0, _ => rfl
  | n + 1, s => by
    cases hd : hasDoubleSlash s with
    | false => simp [squashLoop, hd]
    | true =>
      simp only [squashLoop, hd, if_true]
      rw [squashLoop_head? n (squashOnce s), squashOnce_head?]

theorem getLast?_cons_of_ne_nil {a : Char} {l : Str} (h : l ≠ []) :
    (a :: l).getLast? = l.getLast? := by
  cases l with
  | nil => exact absurd rfl h
  | cons x xs => exact List.getLast?_cons_cons

theorem squashOnce_getLast? : ∀ s : Str, (squashOnce s).getLast? = s.getLast?
  | [] => rfl
  | [_] => rfl
  | a :: b :: rest => by
    cases hab : (a == '/' && b == '/') with
    | true =>
      rw [squashOnce_cons_pos a b rest hab]
      have hrec := squashOnce_getLast? rest
      rcases rest with _ | ⟨r, rs⟩
      · have hb : b = '/' := eq_of_beq ((Bool.and_eq_true _ _).mp hab).2
        simp [squashOnce, hb]
      · have hne : squashOnce (r :: rs) ≠ [] := squashOnce_ne_nil _ (by simp)
        rw [getLast?_cons_of_ne_nil hne, hrec, List.getLast?_cons_cons,
          List.getLast?_cons_cons]
    | false =>
      rw [squashOnce_cons_neg a b rest hab]
      have hne : squashOnce (b :: rest) ≠ [] := squashOnce_ne_nil _ (by simp)
      rw [getLast?_cons_of_ne_nil hne, squashOnce_getLast? (b :: rest),
        List.getLast?_cons_cons]

theorem squashLoop_getLast? : ∀ (n : Nat) (s : Str), (squashLoop n s).getLast? = s.getLast?
  | 0, _ => rfl
  | n + 1, s => by
    cases hd : hasDoubleSlash s with
    | false => simp [squashLoop, hd]
    | true =>
      simp only [squashLoop, hd, if_true]
      rw [squashLoop_getLast? n (squashOnce s), squashOnce_getLast?]

theorem stripLeft_all_sat {p : Char → Bool} : ∀ s : Str, (∀ c ∈ s, p c = true) →
    stripLeft p s = []
  | [], _ => rfl
  | a :: t, h => by
    have ha : p a = true := h a (by simp)
    simp only [stripLeft, List.dropWhile_cons, ha, if_true]
    exact stripLeft_all_sat t fun c hc => h c (List.mem_cons_of_mem _ hc)

theorem stripLeft_all_not {p : Char → Bool} (s : Str) (h : ∀ c ∈ s, p c = false) :
    stripLeft p s = s := by
  cases s with
  | nil => rfl
  | cons a t =>
    have ha : p a = false := h a (by simp)
    simp [stripLeft, List.dropWhile_cons, ha]

theorem stripRight_cons (p : Char → Bool) (a : Char) (t : Str) :
    stripRight p (a :: t) =
      if stripRight p t = [] then (if p a then [] else [a]) else a :: stripRight p t := rfl

theorem stripRight_all_not {p : Char → Bool} : ∀ s : Str, (∀ c ∈ s, p c = false) →
    stripRight p s = s
  | [], _ => rfl
  | a :: t, h => by
    have ht : stripRight p t = t := stripRight_all_not t fun c hc => h c (List.mem_cons_of_mem _ hc)
    have ha : p a = false := h a (by simp)
    rw [stripRight_cons, ht]
    cases t with
    | nil => simp [ha]
    | cons b ts => simp

theorem mem_stripLeft {p : Char → Bool} : ∀ (s : Str) (c : Char), c ∈ stripLeft p s → c ∈ s
  | [], _, h => h
  | a :: t, c, h => by
    simp only [stripLeft, List.dropWhile_cons] at h
    by_cases ha : p a = true
    · simp only [ha, if_true] at h
      exact List.mem_cons_of_mem _ (mem_stripLeft t c h)
    · simp only [eq_false_of_ne_true ha] at h
      simp only [Bool.false_eq_true, if_false] at h
      exact h

theorem mem_stripRight {p : Char → Bool} : ∀ (s : Str) (c : Char), c ∈ stripRight p s → c ∈ s
  | [], _, h => h
  | a :: t, c, h => by
    simp only [stripRight] at h
    by_cases hr : stripRight p t = []
    · simp only [hr, if_true] at h
      by_cases ha : p a = true
      · simp [ha] at h
      · simp only [eq_false_of_ne_true ha, Bool.false_eq_true, if_false,
          List.mem_singleton] at h
        simp [h]
    · simp only [if_neg hr, List.mem_cons] at h
      rcases h with h | h
      · simp [h]
      · exact List.mem_cons_of_mem _ (mem_stripRight t c h)

theorem mem_pyStripWith {p : Char → Bool} (s : Str) (c : Char) (h : c ∈ pyStripWith p s) :
    c ∈ s :=
  mem_stripLeft s c (mem_stripRight _ c h)

theorem head?_stripLeft {p : Char → Bool} : ∀ (s : Str) (c : Char),
    (stripLeft p s).head? = some c → p c = false
  | [], c, h => by simp [stripLeft] at h
  | a :: t, c, h => by
    simp only [stripLeft, List.dropWhile_cons] at h
    by_cases ha : p a = true
    · simp only [ha, if_true] at h
      exact head?_stripLeft t c h
    · simp only [eq_false_of_ne_true ha, Bool.false_eq_true, if_false, List.head?_cons,
        Option.some.injEq] at h
      subst h; exact eq_false_of_ne_true ha

theorem head?_stripRight {p : Char → Bool} (s : Str) (c : Char)
    (h : (stripRight p s).head? = some c) : s.head? = some c := by
  cases s with
  | nil => simp [stripRight] at h
  | cons a t =>
    simp only [stripRight] at h
    by_cases hr : stripRight p t = []
    · simp only [hr, if_true] at h
      by_cases ha : p a = true
      · simp [ha] at h
      · simp only [eq_false_of_ne_true ha, Bool.false_eq_true, if_false, List.head?_cons,
          Option.some.injEq] at h
        simp [h]
    · simp only [if_neg hr, List.head?_cons, Option.some.injEq] at h
      simp [h]

theorem getLast?_stripRight {p : Char → Bool} : ∀ (s : Str) (c : Char),
    (stripRight p s).getLast? = some c → p c = false
  | [], c, h => by simp [stripRight] at h
  | a :: t, c, h => by
    simp only [stripRight] at h
    by_cases hr : stripRight p t = []
    · simp only [hr, if_true] at h
      by_cases ha : p a = true
      · simp [ha] at h
      · simp only [eq_false_of_ne_true ha, Bool.false_eq_true, if_false] at h
        simp only [List.getLast?_singleton, Option.some.injEq] at h
        subst h; exact eq_false_of_ne_true ha
    · rw [if_neg hr, getLast?_cons_of_ne_nil hr] at h
      exact getLast?_stripRight t c h

theorem head?_pyStripWith {p : Char → Bool} (s : Str) (c : Char)
    (h : (pyStripWith p s).head? = some c) : p c = false :=
  head?_stripLeft s c (head?_stripRight _ c h)

theorem getLast?_pyStripWith {p : Char → Bool} (s : Str) (c : Char)
    (h : (pyStripWith p s).getLast? = some c) : p c = false :=
  getLast?_stripRight _ c h

theorem pyStripWith_all_not {p : Char → Bool} (s : Str) (h : ∀ c ∈ s, p c = false) :
    pyStripWith p s = s := by
  unfold pyStripWith
  rw [stripLeft_all_not s h]
  exact stripRight_all_not s h

/-- A character of the normalized path is a character of the string obtained
after the backslash replacement step. -/
theorem mem_normalize_path (path : Str) (c : Char) (h : c ∈ normalize_path path) :
    c ∈ replaceChar '\\' '/' (pyStrip path) := by
  by_cases hp : path = []
  · subst hp; simp [normalize_path] at h
  · simp only [normalize_path, if_neg hp] at h
    exact mem_pyStripWith _ c (mem_squashLoop _ _ c h)

theorem replaceChar_no_source (a b : Char) (s : Str) (c : Char)
    (h : c ∈ replaceChar a b s) (hab : b ≠ a) : c ≠ a := by
  simp only [replaceChar, List.mem_map] at h
  rcases h with ⟨x, _, hx⟩
  by_cases hxa : x == a
  · simp only [hxa, if_true] at hx; subst hx; exact hab
  · simp only [hxa, Bool.false_eq_true, if_false] at hx
    subst hx
    intro hcon
    exact hxa (by simp [hcon])

theorem replaceChar_all_not (a b : Char) : ∀ s : Str, (∀ c ∈ s, c ≠ a) →
    replaceChar a b s = s
  | [], _ => rfl
  | c :: t, h => by
    have hc : (c == a) = false := by
      have := h c (by simp)
      simp [this]
    have ht := replaceChar_all_not a b t fun x hx => h x (List.mem_cons_of_mem _ hx)
    simp only [replaceChar, List.map_cons, hc, Bool.false_eq_true, if_false] at *
    rw [ht]

theorem stripLeft_eq_self_of_head {p : Char → Bool} (s : Str)
    (h : ∀ c, s.head? = some c → p c = false) : stripLeft p s = s := by
  cases s with
  | nil => rfl
  | cons a t =>
    have ha : p a = false := h a rfl
    simp [stripLeft, List.dropWhile_cons, ha]

theorem stripRight_eq_self_of_getLast {p : Char → Bool} : ∀ s : Str,
    (∀ c, s.getLast? = some c → p c = false) → stripRight p s = s
  | [], _ => rfl
  | [a], h => by
    have ha : p a = false := h a (by simp)
    rw [stripRight_cons]
    simp [stripRight, ha]
  | a :: b :: ts, h => by
    have hrec : stripRight p (b :: ts) = b :: ts := by
      apply stripRight_eq_self_of_getLast (b :: ts)
      intro c hc
      apply h c
      rw [List.getLast?_cons_cons]
      exact hc
    rw [stripRight_cons, hrec]
    simp

theorem pyStripWith_eq_self_of_boundary {p : Char → Bool} (s : Str)
    (hh : ∀ c, s.head? = some c → p c = false)
    (hl : ∀ c, s.getLast? = some c → p c = false) : pyStripWith p s = s := by
  unfold pyStripWith
  rw [stripLeft_eq_self_of_head s hh]
  exact stripRight_eq_self_of_getLast s hl

/-! ### Shape facts about `normalize_path` -/

theorem normalize_path_noDup (path : Str) :
    hasDoubleSlash (normalize_path path) = false := by
  by_cases hp : path = []
  · subst hp; rfl
  · simp only [normalize_path, if_neg hp]
    exact squashLoop_noDup _ _ (le_refl _)

theorem normalize_path_head? (path : Str) (c : Char)
    (h : (normalize_path path).head? = some c) : (c == '/') = false := by
  by_cases hp : path = []
  · subst hp; simp [normalize_path] at h
  · simp only [normalize_path, if_neg hp] at h
    rw [squashLoop_head?] at h
    exact head?_pyStripWith _ c h

theorem normalize_path_getLast? (path : Str) (c : Char)
    (h : (normalize_path path).getLast? = some c) : (c == '/') = false := by
  by_cases hp : path = []
  · subst hp; simp [normalize_path] at h
  · simp only [normalize_path, if_neg hp] at h
    rw [squashLoop_getLast?] at h
    exact getLast?_pyStripWith _ c h

theorem normalize_path_no_ws (path : Str) (c : Char) (hc : c ∈ normalize_path path)
    (hws : ∀ d ∈ path, isPyWs d = false) : isPyWs c = false := by
  have hmem := mem_normalize_path path c hc
  simp only [replaceChar, List.mem_map] at hmem
  rcases hmem with ⟨x, hx, hxc⟩
  have hxp : x ∈ path := mem_pyStripWith path x hx
  by_cases hxa : (x == '\\') = true
  · simp only [hxa, if_true] at hxc
    subst hxc; decide
  · simp only [eq_false_of_ne_true hxa, Bool.false_eq_true, if_false] at hxc
    subst hxc
    exact hws x hxp

theorem normalize_path_no_bs (path : Str) (c : Char) (hc : c ∈ normalize_path path) :
    c ≠ '\\' := by
  have hmem := mem_normalize_path path c hc
  exact replaceChar_no_source '\\' '/' (pyStrip path) c hmem (by decide)

theorem normalize_path_idem_of_no_ws (p : Str) (h : ∀ c ∈ p, isPyWs c = false) :
    normalize_path (normalize_path p) = normalize_path p := by
  by_cases hr : normalize_path p = []
  · rw [hr]; rfl
  · have h1 : pyStrip (normalize_path p) = normalize_path p :=
      pyStripWith_all_not _ fun c hc => normalize_path_no_ws p c hc h
    have h2 : replaceChar '\\' '/' (normalize_path p) = normalize_path p :=
      replaceChar_all_not _ _ _ fun c hc => normalize_path_no_bs p c hc
    have h3 : stripSlash (normalize_path p) = normalize_path p := by
      unfold stripSlash
      exact pyStripWith_eq_self_of_boundary _ (fun c hc => normalize_path_head? p c hc)
        (fun c hc => normalize_path_getLast? p c hc)
    have h4 := normalize_path_noDup p
    generalize hR : normalize_path p = r at h1 h2 h3 h4 hr ⊢
    simp only [normalize_path, if_neg hr]
    rw [h1, h2, h3]
    exact squashLoop_eq_self _ _ h4

theorem normalize_path_all_ws (p : Str) (h : ∀ c ∈ p, isPyWs c = true) :
    normalize_path p = [] := by
  by_cases hp : p = []
  · subst hp; rfl
  · have h0 : stripLeft isPyWs p = [] := stripLeft_all_sat p h
    have h1 : pyStrip p = [] := by
      unfold pyStrip pyStripWith
      rw [h0]
      rfl
    simp only [normalize_path, if_neg hp]
    rw [h1]
    rfl

/-! ### Claim C7 -/

/-- C7 counterexample: `normalize_path` is not idempotent.  Stripping the
trailing slash of the input `"a /"` exposes a trailing space, so a second
application strips further: `normalize_path "a /" = "a "` while
`normalize_path "a " = "a"`. -/
theorem C7_normalize_not_idempotent :
    normalize_path (normalize_path ("a /".data)) ≠ normalize_path ("a /".data) := by
  decide

/-- C7 (amended): `normalize_path` is pure and idempotent on every input
containing no whitespace character (on general input a second application
can strip whitespace exposed by the slash-stripping step); empty or
whitespace-only input normalizes to the empty string; and
`normalize_path "a//b\c/" = "a/b/c"`. -/
theorem C7_normalize_amended :
    (∀ p : Str, (∀ c ∈ p, isPyWs c = false) →
        normalize_path (normalize_path p) = normalize_path p) ∧
    (∀ p : Str, (∀ c ∈ p, isPyWs c = true) → normalize_path p = []) ∧
    normalize_path ("a//b\\c/".data) = "a/b/c".data :=
  ⟨normalize_path_idem_of_no_ws, normalize_path_all_ws, by decide⟩

/-- Witness for C7: the amended theorem applied at the concrete inputs
`"x/y"` (whitespace-free) and `"  "` (whitespace-only). -/
theorem C7_normalize_amended_witness :
    normalize_path (normalize_path ("x/y".data)) = normalize_path ("x/y".data) ∧
    normalize_path ("  ".data) = [] :=
  ⟨C7_normalize_amended.1 ("x/y".data) (by decide),
   C7_normalize_amended.2.1 ("  ".data) (by decide)⟩

/-! ### Validation (`Folder._validate_name`, models.py 164-195) -/

/-- Failure reasons for the checks raised as `ValidationError` across the
tree model; one constructor per distinct `raise` site kind. -/
inductive VErr where
  | emptyName
  | wsOnly
  | badChar (c : Char)
  | reservedName
  | tooLong
  | boundarySpace
  | boundaryDot
  | slashInName
  | trailingDotSpace
  | fieldOverflow
  | selfParent
  | cycleRef
  | uniqueClash
  | moveSelf
  | moveIntoSub
  | moveClash
  | notFound
deriving DecidableEq

/-- `forbidden_chars` of `Folder._validate_name` (models.py 172). -/
def folderForbiddenChars : Str := ['/', '\\', ':', '*', '?', '"', '<', '>', '|', '\x00']

/-- ASCII case of Python `str.upper()`; all names the repo compares against
the reserved list are ASCII. -/
def asciiUpper (c : Char) : Char :=
  if 'a' ≤ c ∧ c ≤ 'z' then Char.ofNat (c.toNat - 32) else c

def pyUpper (s : Str) : Str := s.map asciiUpper

/-- `forbidden_names` of `Folder._validate_name` (models.py 178-183). -/
def folderReservedNames : List Str :=
  ["CON".data, "PRN".data, "AUX".data, "NUL".data,
   "COM1".data, "COM2".data, "COM3".data, "COM4".data, "COM5".data,
   "COM6".data, "COM7".data, "COM8".data, "COM9".data,
   "LPT1".data, "LPT2".data, "LPT3".data, "LPT4".data, "LPT5".data,
   "LPT6".data, "LPT7".data, "LPT8".data, "LPT9".data,
   ".".data, "..".data]

/-- Translated from `Folder._validate_name` (models.py 164-195): the checks
run in source order and the first violated rule raises, so the result is the
first matching failure reason. -/
def validate_name (name : Str) : Option VErr :=
  if name = [] then some .emptyName
  else if pyStrip name = [] then some .wsOnly
  else
    match folderForbiddenChars.find? (fun c => name.contains c) with
    | some c => some (.badChar c)
    | none =>
      if (folderReservedNames.map pyUpper).contains (pyUpper name) then some .reservedName
      else if 255 < name.length then some .tooLong
      else if name.head? = some ' ' ∨ name.getLast? = some ' ' then some .boundarySpace
      else if name.head? = some '.' ∨ name.getLast? = some '.' then some .boundaryDot
      else none

/-! ### The folder table -/

/-- One row of the `Folder` model (models.py 11-54): `parent` holds the
primary key of the parent row (`None` for a root folder), and
`materialized_path` caches the slash-joined ancestor name chain. -/
structure Folder where
  pk : Nat
  owner : Nat
  name : Str
  parent : Option Nat
  materialized_path : Str
deriving DecidableEq

/-- `Folder.full_path` (models.py 148-152). -/
def full_path (f : Folder) : Str :=
  if f.materialized_path ≠ [] then f.materialized_path ++ '/' :: f.name
  else f.name

/-- Django `Folder.objects.get(owner=..., materialized_path=..., name=...)`
as used by `find_by_path` and `find_or_create_by_path`: the unique matching
row, or `none` when no row matches (`DoesNotExist`).  The claims below that
quantify over databases either build concrete tables or carry uniqueness
hypotheses, so the `MultipleObjectsReturned` case does not arise. -/
def folderGet (db : List Folder) (owner : Nat) (mp nm : Str) : Option Folder :=
  match db.filter (fun f => f.owner == owner && f.materialized_path == mp && f.name == nm) with
  | [f] => some f
  | _ => none

/-- Django `Folder.objects.get(pk=...)`. -/
def folderGetPk (db : List Folder) (pk : Nat) : Option Folder :=
  match db.filter (fun f => f.pk == pk) with
  | [f] => some f
  | _ => none

/-- Python `path.split('/')` (accumulator carries the current segment
reversed). -/
def splitSlashAux : Str → Str → List Str
  | [], acc => [acc.reverse]
  | c :: rest, acc =>
    if c == '/' then acc.reverse :: splitSlashAux rest []
    else splitSlashAux rest (c :: acc)

def splitSlash (s : Str) : List Str := splitSlashAux s []

/-- `[p for p in normalized_path.split('/') if p]` (models.py 266). -/
def pathParts (s : Str) : List Str := (splitSlash s).filter fun p => decide (p ≠ [])

/-- Python `'/'.join(parts)`. -/
def joinSlash (parts : List Str) : Str := List.intercalate ['/'] parts

/-- The loop `for i in range(len(parts), 0, -1)` of `Folder.find_by_path`
(models.py 271-283); the `Nat` argument is the Python loop variable `i`, and
`parts[:i-1]` / `parts[i-1]` become `parts.take i` / `parts.getD i []` after
shifting the argument by one. -/
def findLoop (db : List Folder) (user : Nat) (parts : List Str) : Nat → Option Folder
  | 0 => none
  | i + 1 =>
    match folderGet db user (joinSlash (parts.take i)) (parts.getD i []) with
    | some f => some f
    | none => findLoop db user parts i

/-- Translated from `Folder.find_by_path` (models.py 260-285). -/
def find_by_path (db : List Folder) (user : Nat) (path : Str) : Option Folder :=
  if path = [] then none
  else
    let parts := pathParts (normalize_path path)
    if parts = [] then none
    else findLoop db user parts parts.length

/-! ### Claim C6 -/

set_option maxRecDepth 8000 in
/-- C6 counterexample: the 256-character name `aaa…a.` exceeds 255
characters and ends with a period, yet `validate_name` reports the length
error — the trailing-dot check is masked by the earlier length check
(models.py runs the length check at line 188, the dot check at line 194). -/
theorem C6_counterexample :
    (List.replicate 256 'a' ++ ['.']).getLast? = some '.' ∧
    255 < (List.replicate 256 'a' ++ ['.']).length ∧
    validate_name (List.replicate 256 'a' ++ ['.']) = some VErr.tooLong ∧
    validate_name (List.replicate 256 'a' ++ ['.']) ≠ some VErr.boundaryDot := by
  decide

/-- C6 (amended): `validate_name` returns the failure reason of the first
rule violated in the source's check order (empty, whitespace-only,
forbidden character, reserved name, length, boundary space, boundary dot),
so each failing name gets exactly one reason; in particular a name that
passes the earlier checks and exceeds 255 characters is reported as too
long even when it also ends with a period — the trailing-dot check does
not fire for it. -/
theorem C6_first_violated_rule_wins (name : Str)
    (h1 : name ≠ [])
    (h2 : pyStrip name ≠ [])
    (h3 : ∀ c ∈ folderForbiddenChars, name.contains c = false)
    (h4 : (folderReservedNames.map pyUpper).contains (pyUpper name) = false)
    (h5 : 255 < name.length) :
    validate_name name = some VErr.tooLong := by
  have hf : folderForbiddenChars.find? (fun c => name.contains c) = none :=
    List.find?_eq_none.mpr fun x hx => by simpa using h3 x hx
  simp only [validate_name, if_neg h1, if_neg h2, hf, h4, Bool.false_eq_true,
    if_false, if_pos h5]

set_option maxRecDepth 8000 in
/-- Witness for C6: the amended theorem applied at the over-long
dot-terminated name of the counterexample. -/
theorem C6_first_violated_rule_wins_witness :
    validate_name (List.replicate 256 'a' ++ ['.']) = some VErr.tooLong :=
  C6_first_violated_rule_wins (List.replicate 256 'a' ++ ['.'])
    (by decide) (by decide) (by decide) (by decide) (by decide)

/-! ### Claim C3 -/

theorem findLoop_eq_none_iff (db : List Folder) (user : Nat) (parts : List Str) :
    ∀ n : Nat, (findLoop db user parts n = none ↔
      ∀ i < n, folderGet db user (joinSlash (parts.take i)) (parts.getD i []) = none)
  | 0 => by simp [findLoop]
  | n + 1 => by
    cases hg : folderGet db user (joinSlash (parts.take n)) (parts.getD n []) with
    | some f =>
      simp only [findLoop, hg]
      constructor
      · intro h; exact absurd h (by simp)
      · intro h
        have := h n (by omega)
        rw [hg] at this
        exact absurd this (by simp)
    | none =>
      simp only [findLoop, hg]
      rw [findLoop_eq_none_iff db user parts n]
      constructor
      · intro h i hi
        by_cases hin : i = n
        · subst hin; exact hg
        · exact h i (by omega)
      · intro h i hi
        exact h i (by omega)

theorem findLoop_eq_some (db : List Folder) (user : Nat) (parts : List Str) :
    ∀ (n : Nat) (f : Folder), findLoop db user parts n = some f →
      ∃ i < n, folderGet db user (joinSlash (parts.take i)) (parts.getD i []) = some f ∧
        ∀ j, i < j → j < n →
          folderGet db user (joinSlash (parts.take j)) (parts.getD j []) = none
  | 0, f, h => by simp [findLoop] at h
  | n + 1, f, h => by
    cases hg : folderGet db user (joinSlash (parts.take n)) (parts.getD n []) with
    | some g =>
      simp only [findLoop, hg, Option.some.injEq] at h
      subst h
      exact ⟨n, by omega, hg, fun j h1 h2 => by omega⟩
    | none =>
      simp only [findLoop, hg] at h
      rcases findLoop_eq_some db user parts n f h with ⟨i, hi, hsome, hnone⟩
      refine ⟨i, by omega, hsome, fun j h1 h2 => ?_⟩
      by_cases hjn : j = n
      · subst hjn; exact hg
      · exact hnone j h1 (by omega)

/-- The one-folder table of the C3 counterexample: a single root folder
named `A` owned by user 1. -/
def folderA : Folder := ⟨1, 1, "A".data, none, []⟩

def dbOnlyA : List Folder := [folderA]

/-- C3 counterexample: with only the root folder `A` in the table, the walk
of `"A/B"` fails at segment `B` (no folder `(materialized_path = "A",
name = "B")` exists), yet `find_by_path` returns the partially matching
ancestor folder `A` instead of not-found: the loop in models.py 271-283
falls back to ever-shorter prefixes of the path. -/
theorem C3_counterexample :
    folderGet dbOnlyA 1 ("A".data) ("B".data) = none ∧
    find_by_path dbOnlyA 1 ("A/B".data) = some folderA := by
  decide

/-- C3 (amended): `find_by_path` tries the path's prefixes from longest to
shortest and returns the folder matching the longest prefix that resolves
as a `(materialized_path, name)` pair; it returns not-found only when
every prefix fails to resolve — a path whose walk fails at a later segment
resolves to the deepest existing ancestor (a partial match), not to
not-found. -/
theorem C3_find_by_path_longest_match (db : List Folder) (user : Nat) (path : Str)
    (parts : List Str) (hparts : parts = pathParts (normalize_path path))
    (hpath : path ≠ []) (hne : parts ≠ []) :
    (find_by_path db user path = none ↔
      ∀ i < parts.length,
        folderGet db user (joinSlash (parts.take i)) (parts.getD i []) = none) ∧
    (∀ f, find_by_path db user path = some f →
      ∃ i < parts.length,
        folderGet db user (joinSlash (parts.take i)) (parts.getD i []) = some f ∧
        ∀ j, i < j → j < parts.length →
          folderGet db user (joinSlash (parts.take j)) (parts.getD j []) = none) := by
  have hfind : find_by_path db user path = findLoop db user parts parts.length := by
    rw [hparts]
    simp only [find_by_path, if_neg hpath, if_neg (hparts ▸ hne)]
  rw [hfind]
  exact ⟨findLoop_eq_none_iff db user parts parts.length,
    fun f h => findLoop_eq_some db user parts parts.length f h⟩

/-- Witness for C3: the amended theorem applied to the counterexample
table, showing the fallback returns folder `A` for the path `"A/B"` at
prefix length 1. -/
theorem C3_find_by_path_longest_match_witness :
    ∃ i < (pathParts (normalize_path ("A/B".data))).length,
      folderGet dbOnlyA 1
        (joinSlash ((pathParts (normalize_path ("A/B".data))).take i))
        ((pathParts (normalize_path ("A/B".data))).getD i []) = some folderA ∧
      ∀ j, i < j → j < (pathParts (normalize_path ("A/B".data))).length →
        folderGet dbOnlyA 1
          (joinSlash ((pathParts (normalize_path ("A/B".data))).take j))
          ((pathParts (normalize_path ("A/B".data))).getD j []) = none :=
  (C3_find_by_path_longest_match dbOnlyA 1 ("A/B".data)
      (pathParts (normalize_path ("A/B".data))) rfl (by decide) (by decide)).2
    folderA (by decide)

/-! ### The stored-file table and search -/

/-- One row of the `StoredFile` model (models.py 411-475), restricted to
the fields the claims touch: `folder` holds the pk of the containing folder
(`none` = root) and `file_name` is the storage key `file.name`. -/
structure FileRow where
  pk : Nat
  owner : Nat
  folder : Option Nat
  original_name : Str
  file_name : Str
deriving DecidableEq

/-- ASCII case of Python lower-casing as applied by `icontains`; the claims
evaluate it on ASCII data only. -/
def asciiLower (c : Char) : Char :=
  if 'A' ≤ c ∧ c ≤ 'Z' then Char.ofNat (c.toNat + 32) else c

def pyLower (s : Str) : Str := s.map asciiLower

/-- Python `s.startswith(p)` / Django `__startswith`, with the pattern
first: `startsWith p s` holds when `p` is a prefix of `s`. -/
def startsWith : Str → Str → Bool
  | [], _ => true
  | _ :: _, [] => false
  | a :: as, b :: bs => a == b && startsWith as bs

/-- Python substring test `needle in hay`. -/
def isSubstring (needle : Str) : Str → Bool
  | [] => needle == []
  | c :: rest => startsWith needle (c :: rest) || isSubstring needle rest

/-- Django `original_name__icontains=query`: case-insensitive substring. -/
def icontains (hay needle : Str) : Bool := isSubstring (pyLower needle) (pyLower hay)

/-- Translated from `StorageService.search_files` (services.py 323-331):
empty query short-circuits to the empty list; otherwise filter by owner and
case-insensitive name containment.  The final `.order_by('original_name')`
only permutes the result and is not modelled; the claim constrains
membership. -/
def search_files (files : List FileRow) (user : Nat) (query : Str) : List FileRow :=
  if query = [] then []
  else files.filter fun f => f.owner == user && icontains f.original_name query

/-! ### Claim C8 -/

/-- C8 (confirmed): `search_files` returns exactly the rows owned by the
requesting user whose original name contains the query as a
case-insensitive substring — never a row of a different owner — and the
empty query yields the empty result rather than all of the owner's files. -/
theorem C8_search_scoped_substring :
    (∀ (files : List FileRow) (user : Nat), search_files files user [] = []) ∧
    (∀ (files : List FileRow) (user : Nat) (q : Str) (f : FileRow),
      f ∈ search_files files user q ↔
        q ≠ [] ∧ f ∈ files ∧ f.owner = user ∧
          isSubstring (pyLower q) (pyLower f.original_name) = true) := by
  constructor
  · intro files user; simp [search_files]
  · intro files user q f
    by_cases hq : q = []
    · subst hq; simp [search_files]
    · simp only [search_files, if_neg hq, List.mem_filter, Bool.and_eq_true, beq_iff_eq]
      unfold icontains
      tauto

/-! ### The object-store adapter (`MinIOClient`) -/

/-- The per-owner key prefix, Python `f"user-{user.id}-files/"`. -/
def userKeyPfx (uid : Nat) : Str := "user-".data ++ (Nat.repr uid).data ++ "-files/".data

/-- One S3 request issued by the adapter. -/
inductive MinioOp where
  | copy (src dst : Str)
  | delete (k : Str)
  | put (k : Str)
deriving DecidableEq

/-- The keys named by an S3 request. -/
def opKeys : MinioOp → List Str
  | .copy s d => [s, d]
  | .delete k => [k]
  | .put k => [k]

/-- The object store: the set of keys currently present (contents are
irrelevant to the claims). -/
def removeKey (store : List Str) (k : Str) : List Str := store.filter fun x => decide (x ≠ k)

/-- `put_object` / `copy_object` destination: adds the key (an overwrite
leaves the key set unchanged). -/
def addKey (store : List Str) (k : Str) : List Str := if k ∈ store then store else store ++ [k]

/-- Translated from `MinIOClient.rename_object` (minio_client.py 194-222):
`head_object` on the old key (absent → "file not found" error),
`head_object` on the new key (present → "already exists" error), then
`copy_object` followed by `delete_object`.  Returns the store after the
call, the requests issued, and the success flag.  Note that the method
performs no verification of either key against any owner prefix. -/
def rename_object (store : List Str) (old_key new_key : Str) :
    List Str × List MinioOp × Bool :=
  if old_key ∉ store then (store, [], false)
  else if new_key ∈ store then (store, [], false)
  else (removeKey (addKey store new_key) old_key,
        [.copy old_key new_key, .delete old_key], true)

/-- Python `s.replace(old, new)` for nonempty `old`: replace all
non-overlapping occurrences scanning left to right.  Embedded with fuel;
every step consumes at least one character, so fuel `s.length` suffices.
(For `old = []` Python would intersperse `new`; the repo only calls this
with nonempty prefixes and the model leaves `s` unchanged then.) -/
def pyReplaceAllAux (old new : Str) : Nat → Str → Str
  | 0, s => s
  | _ + 1, [] => []
  | fuel + 1, c :: rest =>
    if old ≠ [] ∧ startsWith old (c :: rest) = true then
      new ++ pyReplaceAllAux old new fuel ((c :: rest).drop old.length)
    else c :: pyReplaceAllAux old new fuel rest

def pyReplaceAll (old new s : Str) : Str := pyReplaceAllAux old new s.length s

/-- The `new_path` computed by `MinIOClient.rename_folder` (minio_client.py
107-113): the path's last segment is replaced by `new_name` under the same
parent (`'/'.join(parts[:-1])`, empty for a single segment). -/
def mrfNewPath (old_path new_name : Str) : Str :=
  let parts := splitSlash old_path
  let parent_path := joinSlash parts.dropLast
  if parent_path ≠ [] then parent_path ++ '/' :: new_name else new_name

/-- Translated from `MinIOClient.rename_folder` (minio_client.py 100-162):
normalize the old path, compute the new path under the same parent, list
every key under the old per-user path (the paginated
`list_objects_v2` becomes a filter of the key set), then either create the
new marker and delete the old one (empty listing) or copy each listed key
to `old_key.replace(old, new)` and delete it, finally deleting the
old marker key.  Returns the store after the call, the requests issued, and
the success flag. -/
def minio_rename_folder (store : List Str) (uid : Nat) (old_path0 new_name : Str) :
    List Str × List MinioOp × Bool :=
  let old_path := normalize_path old_path0
  if old_path = [] then (store, [], false)
  else
    let oldPfx := userKeyPfx uid ++ old_path ++ ['/']
    let newPfx := userKeyPfx uid ++ mrfNewPath old_path new_name ++ ['/']
    let objs := store.filter fun k => startsWith oldPfx k
    if objs = [] then
      (removeKey (addKey store newPfx) oldPfx, [.put newPfx, .delete oldPfx], true)
    else
      (removeKey (objs.foldl
          (fun st k => removeKey (addKey st (pyReplaceAll oldPfx newPfx k)) k) store) oldPfx,
       (objs.map fun k =>
         [MinioOp.copy k (pyReplaceAll oldPfx newPfx k), MinioOp.delete k]).flatten
         ++ [.delete oldPfx],
       true)

/-! ### Claim C5 -/

theorem startsWith_self_append : ∀ p t : Str, startsWith p (p ++ t) = true
  | [], _ => rfl
  | a :: as, t => by
    simp only [List.cons_append, startsWith, Bool.and_eq_true, beq_self_eq_true, true_and]
    exact startsWith_self_append as t

theorem startsWith_of_append_left : ∀ p q s : Str,
    startsWith (p ++ q) s = true → startsWith p s = true
  | [], _, _, _ => rfl
  | a :: as, q, s, h => by
    cases s with
    | nil => simp [startsWith] at h
    | cons b bs =>
      simp only [List.cons_append, startsWith, Bool.and_eq_true] at h ⊢
      exact ⟨h.1, startsWith_of_append_left as q bs h.2⟩

theorem startsWith_pyReplaceAll (old new s : Str) (hold : old ≠ [])
    (hsw : startsWith old s = true) : startsWith new (pyReplaceAll old new s) = true := by
  cases s with
  | nil =>
    cases old with
    | nil => exact absurd rfl hold
    | cons o os => simp [startsWith] at hsw
  | cons c rest =>
    show startsWith new (pyReplaceAllAux old new (c :: rest).length (c :: rest)) = true
    simp only [List.length_cons, pyReplaceAllAux, if_pos (And.intro hold hsw)]
    exact startsWith_self_append new _

/-- C5 counterexample: `rename_object` performs no owner-prefix check at
all — handed a key outside every user area it happily issues the copy and
the delete (a head-object probe, a copy and a delete on `"evil"`, a key
that does not start with `"user-"`). -/
theorem C5_counterexample :
    rename_object ["evil".data] ("evil".data) ("outside".data) =
      (["outside".data],
       [MinioOp.copy ("evil".data) ("outside".data), MinioOp.delete ("evil".data)],
       true) ∧
    startsWith ("user-".data) ("evil".data) = false ∧
    startsWith ("user-".data) ("outside".data) = false := by
  decide

/-- C5 (amended): no explicit prefix verification exists anywhere in the
adapter; `rename_object` operates on caller-supplied keys unchecked (the
only check lives in `StorageService.rename_file`, on the old key).  What
holds instead is by construction: every key `rename_folder` passes to a
copy, delete or put starts with the owning user's key area
`user-<id>-files/`, because listed keys carry the old per-user path and
copy destinations result from substituting the new per-user path. -/
theorem C5_rename_folder_keys_under_owner_area (store : List Str) (uid : Nat)
    (old_path0 new_name : Str) (op : MinioOp)
    (hop : op ∈ (minio_rename_folder store uid old_path0 new_name).2.1)
    (k : Str) (hk : k ∈ opKeys op) :
    startsWith (userKeyPfx uid) k = true := by
  have hP : ∀ X : Str, startsWith (userKeyPfx uid) (userKeyPfx uid ++ X ++ ['/']) = true := by
    intro X
    rw [List.append_assoc]
    exact startsWith_self_append _ _
  have hPk : ∀ (X x : Str), startsWith (userKeyPfx uid ++ X ++ ['/']) x = true →
      startsWith (userKeyPfx uid) x = true := by
    intro X x hx
    rw [List.append_assoc] at hx
    exact startsWith_of_append_left _ _ _ hx
  simp only [minio_rename_folder] at hop
  by_cases hnp : normalize_path old_path0 = []
  · rw [if_pos hnp] at hop
    simp at hop
  · rw [if_neg hnp] at hop
    by_cases hobjs : store.filter
        (fun k => startsWith (userKeyPfx uid ++ normalize_path old_path0 ++ ['/']) k) = []
    · rw [if_pos hobjs] at hop
      simp only [List.mem_cons, List.not_mem_nil, or_false] at hop
      rcases hop with h | h <;> subst h <;> simp only [opKeys, List.mem_cons,
        List.not_mem_nil, or_false, List.mem_singleton] at hk <;> rcases hk with rfl <;>
        exact hP _
    · rw [if_neg hobjs] at hop
      simp only [List.mem_append, List.mem_flatten, List.mem_map, List.mem_filter,
        List.mem_cons, List.mem_singleton, List.not_mem_nil, or_false] at hop
      rcases hop with ⟨l, ⟨x, ⟨hxs, hxp⟩, rfl⟩, hopl⟩ | rfl
      · simp only [List.mem_cons, List.mem_singleton, List.not_mem_nil, or_false] at hopl
        rcases hopl with rfl | rfl
        · simp only [opKeys, List.mem_cons, List.not_mem_nil, or_false] at hk
          rcases hk with rfl | rfl
          · exact hPk _ _ hxp
          · have holdne : userKeyPfx uid ++ normalize_path old_path0 ++ ['/'] ≠ [] := by
              simp
            have := startsWith_pyReplaceAll
              (userKeyPfx uid ++ normalize_path old_path0 ++ ['/'])
              (userKeyPfx uid ++ mrfNewPath (normalize_path old_path0) new_name ++ ['/'])
              x holdne hxp
            exact hPk _ _ this
        · simp only [opKeys, List.mem_singleton] at hk
          rcases hk with rfl
          exact hPk _ _ hxp
      · simp only [opKeys, List.mem_singleton] at hk
        rcases hk with rfl
        exact hP _

/-- Witness for C5: the amended theorem applied to a store holding one
object under `user-1-files/A/`, at the copy request issued while renaming
folder `A` to `B`. -/
theorem C5_rename_folder_keys_under_owner_area_witness :
    startsWith (userKeyPfx 1) ("user-1-files/B/f.txt".data) = true :=
  C5_rename_folder_keys_under_owner_area ["user-1-files/A/f.txt".data] 1
    ("A".data) ("B".data)
    (MinioOp.copy ("user-1-files/A/f.txt".data) ("user-1-files/B/f.txt".data))
    (by decide) ("user-1-files/B/f.txt".data) (by decide)

/-! ### Tree-model mutations (`Folder.save`, `rename`, `move`) -/

/-- Python `s.replace(old, new, 1)`: replace the first occurrence only. -/
def pyReplaceFirst (old new : Str) : Str → Str
  | [] => if startsWith old [] then new else []
  | c :: rest =>
    if startsWith old (c :: rest) then new ++ (c :: rest).drop old.length
    else c :: pyReplaceFirst old new rest

/-- `Folder.get_descendants` (models.py 239-254): same-owner rows selected
by a raw string match of `materialized_path` against this folder's
`full_path` — `materialized_path__startswith` with no path-separator
boundary; `include_self` additionally admits `materialized_path` equality
and the row itself. -/
def get_descendants (db : List Folder) (f : Folder) (include_self : Bool) : List Folder :=
  if include_self then
    db.filter fun g => g.owner == f.owner &&
      (startsWith (full_path f) g.materialized_path ||
        g.materialized_path == full_path f || g.pk == f.pk)
  else
    db.filter fun g =>
      (g.owner == f.owner && startsWith (full_path f) g.materialized_path) &&
        !(g.pk == f.pk)

/-- `Folder._update_descendants_paths` (models.py 123-146), run after the
row write, so `f` carries the new name and new `materialized_path`:
`old_full_path` is built from the old base path and the *current* name,
`new_full_path` equals the current `full_path`; each row of
`get_descendants(include_self=False)` whose `materialized_path` starts with
`old_full_path` (and `old_full_path` is nonempty) has its first occurrence
of `old_full_path` replaced by `new_full_path`. -/
def update_descendants_paths (db : List Folder) (f : Folder) (old_base : Str) : List Folder :=
  let old_full := if old_base ≠ [] then old_base ++ '/' :: f.name else f.name
  let new_full := full_path f
  db.map fun d =>
    if ((d.owner == f.owner && startsWith (full_path f) d.materialized_path) &&
          !(d.pk == f.pk)) &&
        (decide (old_full ≠ []) && startsWith old_full d.materialized_path) then
      { d with materialized_path := pyReplaceFirst old_full new_full d.materialized_path }
    else d

/-- The new `materialized_path` computed by
`Folder._update_materialized_path` (models.py 89-113): the parent's
`full_path`, empty for a root folder.  (The parent pk always resolves in a
consistent table; a dangling pk maps to the root path.) -/
def parentPath (db : List Folder) (f : Folder) : Str :=
  match f.parent with
  | none => []
  | some ppk =>
    match folderGetPk db ppk with
    | some p => full_path p
    | none => []

/-- The `unique_together = (owner, parent, name)` clash test, excluding the
row itself (models.py 115-121 and Django's `validate_unique`). -/
def folderClash (db : List Folder) (f : Folder) : Bool :=
  db.any fun g =>
    g.owner == f.owner && g.parent == f.parent && g.name == f.name && !(g.pk == f.pk)

/-- The ancestor walk of `Folder.clean` (models.py 67-72): follow parent
pks from `f.parent`, reporting true when `f.pk` occurs in the chain.  The
source walks in-memory parent objects; fuel `db.length` bounds the walk in
the table model. -/
def cycleInChainAux (db : List Folder) (selfPk : Nat) : Nat → Option Nat → Bool
  | 0, _ => false
  | _, none => false
  | fuel + 1, some pk =>
    if pk == selfPk then true
    else
      match folderGetPk db pk with
      | some p => cycleInChainAux db selfPk fuel p.parent
      | none => false

def cycleInChain (db : List Folder) (f : Folder) : Bool :=
  cycleInChainAux db f.pk db.length f.parent

/-- `Folder.save` for an existing row (models.py 74-87): recompute
`materialized_path` from the parent, re-check uniqueness when the parent
changed (line 78-80), run `full_clean` (field lengths, `clean`'s name
validation / self-parent / ancestor-cycle checks, `validate_unique`), write
the row, and cascade to descendants iff the `materialized_path` changed.
An error leaves the table untouched (the enclosing operations run in
`transaction.atomic`). -/
def folderSave (db : List Folder) (f0 : Folder) : Except VErr (List Folder) :=
  match folderGetPk db f0.pk with
  | none => .error .notFound
  | some old =>
    let f := { f0 with materialized_path := parentPath db f0 }
    if old.parent ≠ f.parent ∧ folderClash db f = true then .error .uniqueClash
    else if 1000 < f.materialized_path.length then .error .fieldOverflow
    else
      match validate_name f.name with
      | some e => .error e
      | none =>
        if f.parent = some f.pk then .error .selfParent
        else if cycleInChain db f then .error .cycleRef
        else if folderClash db f then .error .uniqueClash
        else
          let db1 := db.map fun g => if g.pk == f.pk then f else g
          if old.materialized_path ≠ f.materialized_path then
            .ok (update_descendants_paths db1 f old.materialized_path)
          else .ok db1

/-- `Folder.rename` (models.py 336-358): validate the new name, check for
a sibling with that name, set the name and save.  `@transaction.atomic`:
an error leaves the table unchanged, which the `Except` encoding captures. -/
def folder_rename (db : List Folder) (f : Folder) (new_name : Str) :
    Except VErr (List Folder) :=
  match validate_name new_name with
  | some e => .error e
  | none =>
    if db.any fun g =>
        g.owner == f.owner && g.parent == f.parent && g.name == new_name &&
          !(g.pk == f.pk) then
      .error .uniqueClash
    else folderSave db { f with name := new_name }

/-- `Folder.move` (models.py 360-388): reject moving into itself, reject
when the new parent's pk occurs among `get_descendants(include_self=True)`
(the cycle guard), reject a name clash under the new parent, then reparent
and save. -/
def folder_move (db : List Folder) (f : Folder) (new_parent : Option Folder) :
    Except VErr (List Folder) :=
  match new_parent with
  | some p =>
    if p.pk = f.pk then .error .moveSelf
    else if p.pk ∈ (get_descendants db f true).map (fun g => g.pk) then
      .error .moveIntoSub
    else if db.any fun g =>
        g.owner == f.owner && g.parent == some p.pk && g.name == f.name &&
          !(g.pk == f.pk) then
      .error .moveClash
    else folderSave db { f with parent := some p.pk }
  | none => folderSave db { f with parent := none }

/-- The counts reported by `Folder.delete_with_content` (models.py 398-399):
files contained in any folder of `get_descendants(include_self=True)`
(`get_all_files`, models.py 256-258), and the size of that folder set. -/
def delete_with_content_counts (db : List Folder) (files : List FileRow) (f : Folder) :
    Nat × Nat :=
  let descendants := get_descendants db f true
  ((files.filter fun r =>
      match r.folder with
      | some k => (descendants.map (fun g => g.pk)).contains k
      | none => false).length,
   descendants.length)

/-- The table state an operation leaves behind: the new table on success,
the untouched one on a rejected operation. -/
def applyResult (db : List Folder) (r : Except VErr (List Folder)) : List Folder :=
  match r with
  | .ok db2 => db2
  | .error _ => db

/-- `d` lies in `f`'s subtree of the parent-pk forest of `db` (the real
descendant relation, independent of the cached paths). -/
inductive Descendant (db : List Folder) (f : Folder) : Folder → Prop where
  | child (d : Folder) (hd : d ∈ db) (hp : d.parent = some f.pk) : Descendant db f d
  | step (m d : Folder) (hm : Descendant db f m) (hmem : m ∈ db) (hd : d ∈ db)
      (hp : d.parent = some m.pk) : Descendant db f d

/-- Every cached `materialized_path` equals the parent's `full_path` — the
invariant the spec states for the folder table. -/
def PathConsistent (db : List Folder) : Prop :=
  ∀ c ∈ db, ∀ p ∈ db, c.parent = some p.pk → c.materialized_path = full_path p

deriving instance DecidableEq for Except

/-! ### Claim C1 -/

/-- Child folder `B` of `folderA`, with the cached path `"A"`. -/
def folderB : Folder := ⟨2, 1, "B".data, some 1, "A".data⟩

def dbAB : List Folder := [folderA, folderB]

/-- C1 (code bug): renaming the root folder `A` (with child `B`) to `A2`
succeeds but rewrites no descendant path: `Folder.save` (models.py 85-87)
triggers `_update_descendants_paths` only when the folder's own
`materialized_path` changed, and a pure rename never changes it (it caches
the ancestor chain, not the own name).  `B.materialized_path` stays `"A"`,
so `find_by_path(owner, "A2/B")` resolves — via the longest-prefix
fallback — to the renamed folder `A2` itself rather than to `B`, and
`find_by_path(owner, "A/B")` still resolves to `B` instead of not-found,
the opposite of the claim on both counts. -/
theorem C1_rename_leaves_descendants_stale :
    folder_rename dbAB folderA ("A2".data) =
      .ok [{ folderA with name := "A2".data }, folderB] ∧
    folderB.materialized_path = "A".data ∧
    find_by_path [{ folderA with name := "A2".data }, folderB] 1 ("A2/B".data) =
      some { folderA with name := "A2".data } ∧
    find_by_path [{ folderA with name := "A2".data }, folderB] 1 ("A/B".data) =
      some folderB := by
  decide

/-! ### Claim C4 -/

theorem startsWith_refl (s : Str) : startsWith s s = true := by
  have := startsWith_self_append s []
  rwa [List.append_nil] at this

theorem startsWith_append_extend : ∀ p s t : Str,
    startsWith p s = true → startsWith p (s ++ t) = true
  | [], _, _, _ => rfl
  | a :: as, [], t, h => by simp [startsWith] at h
  | a :: as, b :: bs, t, h => by
    simp only [startsWith, Bool.and_eq_true, List.cons_append] at h ⊢
    exact ⟨h.1, startsWith_append_extend as bs t h.2⟩

theorem Descendant.mem_db {db : List Folder} {f d : Folder}
    (h : Descendant db f d) : d ∈ db := by
  cases h with
  | child d hd hp => exact hd
  | step m d hm hmem hd hp => exact hd

/-- In a path-consistent table, a real descendant's cached path starts with
the ancestor's `full_path` — so the string-match descendant query of
`get_descendants` finds it. -/
theorem descendant_mp_startsWith {db : List Folder} {f d : Folder}
    (hcons : PathConsistent db) (hf : f ∈ db) (hdesc : Descendant db f d) :
    startsWith (full_path f) d.materialized_path = true := by
  induction hdesc with
  | child d hd hp =>
    rw [hcons d hd f hf hp]
    exact startsWith_refl _
  | step m d hm hmem hd hp ih =>
    rw [hcons d hd m hmem hp]
    by_cases hmp : m.materialized_path = []
    · have hfp : full_path f = [] := by
        rw [hmp] at ih
        cases hh : full_path f with
        | nil => rfl
        | cons x xs => rw [hh] at ih; simp [startsWith] at ih
      rw [hfp]
      rfl
    · have hfm : full_path m = m.materialized_path ++ '/' :: m.name := by
        unfold full_path
        rw [if_pos hmp]
      rw [hfm]
      exact startsWith_append_extend _ _ _ ih

/-- C4 (confirmed): for a real descendant `D` of `F` in a path-consistent
table (same owner, distinct rows), `folder_move` rejects moving `F` into
`D` with the cycle error before touching any row, leaving the table
unchanged: the guard at models.py 365-368 fires because `D`'s cached path
starts with `F.full_path`, so `D.pk` occurs among
`get_descendants(include_self=True)`. -/
theorem C4_move_into_descendant_rejected (db : List Folder) (F D : Folder)
    (hcons : PathConsistent db) (hF : F ∈ db) (hdesc : Descendant db F D)
    (hown : D.owner = F.owner) (hne : D.pk ≠ F.pk) :
    folder_move db F (some D) = .error VErr.moveIntoSub ∧
    applyResult db (folder_move db F (some D)) = db := by
  have hsw := descendant_mp_startsWith hcons hF hdesc
  have hDmem : D ∈ db := hdesc.mem_db
  have hdesc_eq : get_descendants db F true = db.filter fun g =>
      g.owner == F.owner && (startsWith (full_path F) g.materialized_path ||
        g.materialized_path == full_path F || g.pk == F.pk) := rfl
  have hmem : D ∈ get_descendants db F true := by
    rw [hdesc_eq]
    simp only [List.mem_filter, Bool.and_eq_true, Bool.or_eq_true, beq_iff_eq]
    exact ⟨hDmem, hown, Or.inl (Or.inl hsw)⟩
  have hpk : D.pk ∈ (get_descendants db F true).map (fun g => g.pk) :=
    List.mem_map_of_mem _ hmem
  have hmove : folder_move db F (some D) = .error VErr.moveIntoSub := by
    simp only [folder_move, if_neg hne, if_pos hpk]
  exact ⟨hmove, by rw [hmove]; rfl⟩

/-- Witness for C4: the theorem applied to the two-folder table `[A, B]`
with `B` a child of `A`, moving `A` into `B`. -/
theorem C4_move_into_descendant_rejected_witness :
    folder_move dbAB folderA (some folderB) = .error VErr.moveIntoSub ∧
    applyResult dbAB (folder_move dbAB folderA (some folderB)) = dbAB :=
  C4_move_into_descendant_rejected dbAB folderA folderB
    (by unfold PathConsistent; decide)
    (by simp [dbAB]) (Descendant.child folderB (by simp [dbAB]) rfl)
    rfl (by decide)

/-! ### Claim C10 -/

/-- Sibling of `folderA` whose name `A2` has the name `A` as a raw string
prefix. -/
def folderA2sib : Folder := ⟨4, 1, "A2".data, none, []⟩

/-- Child `X` of the sibling `A2`; its cached path `"A2"` starts with the
string `"A"` although it is no descendant of `folderA`. -/
def folderX : Folder := ⟨5, 1, "X".data, some 4, "A2".data⟩

def db10 : List Folder := [folderA, folderA2sib, folderX]

/-- A file stored inside `X`. -/
def fileX : FileRow := ⟨1, 1, some 5, "f.txt".data, "user-1-files/A2/X/f.txt".data⟩

/-- C10 (confirmed): `get_descendants` matches `materialized_path` against
`full_path` by raw string prefix with no separator boundary.  With folders
`A` and `A2` (siblings) and `X` a child of `A2` (cached path `"A2"`),
`X` is enumerated as a "descendant" of `A` although it is not one in the
parent-pk forest; consequently `folder_move` rejects moving `A` into `X`
with the cycle error, and the folder/file counts reported for deleting `A`
(models.py 398-399) count `X` and the file stored in it. -/
theorem C10_raw_string_descendants :
    get_descendants db10 folderA false = [folderX] ∧
    ¬ Descendant db10 folderA folderX ∧
    folder_move db10 folderA (some folderX) = .error VErr.moveIntoSub ∧
    delete_with_content_counts db10 [fileX] folderA = (1, 2) := by
  refine ⟨by decide, ?_, by decide, by decide⟩
  intro h
  cases h with
  | child d hd hp => exact absurd hp (by decide)
  | step m d hm hmem hd hp =>
    have hm4 : m.pk = 4 := by
      have h4 : (some 4 : Option Nat) = some m.pk := hp
      exact (Option.some.inj h4).symm
    simp only [db10, List.mem_cons, List.not_mem_nil, or_false] at hmem
    rcases hmem with rfl | rfl | rfl
    · exact absurd hm4 (by decide)
    · cases hm with
      | child d2 hd2 hp2 => exact absurd hp2 (by decide)
      | step m2 d2 hm2 hmem2 hd2 hp2 => exact absurd hp2 (by simp [folderA2sib])
    · exact absurd hm4 (by decide)

/-! ### File-name validation and the rename services -/

/-- `forbidden_chars` of `StoredFile._validate_filename` (models.py 535):
unlike the folder list it omits `/`, which a dedicated check handles. -/
def fileForbiddenChars : Str := ['\\', ':', '*', '?', '"', '<', '>', '|', '\x00']

/-- `forbidden_names` of `StoredFile._validate_filename` (models.py
550-554); no `.` / `..` entries here. -/
def fileReservedNames : List Str :=
  ["CON".data, "PRN".data, "AUX".data, "NUL".data,
   "COM1".data, "COM2".data, "COM3".data, "COM4".data, "COM5".data,
   "COM6".data, "COM7".data, "COM8".data, "COM9".data,
   "LPT1".data, "LPT2".data, "LPT3".data, "LPT4".data, "LPT5".data,
   "LPT6".data, "LPT7".data, "LPT8".data, "LPT9".data]

/-- The stem of Python `os.path.splitext`: cut at the last dot, unless only
dots precede it (then no split happens). -/
def splitextBase (s : Str) : Str :=
  let tail := s.reverse.takeWhile fun c => !(c == '.')
  if tail.length = s.length then s
  else
    let i := s.length - tail.length - 1
    if (s.take i).any (fun c => !(c == '.')) then s.take i else s

/-- Translated from `StoredFile._validate_filename` (models.py 527-558),
checks in source order. -/
def validate_filename (filename : Str) : Option VErr :=
  if filename = [] then some .emptyName
  else if pyStrip filename = [] then some .wsOnly
  else
    match fileForbiddenChars.find? (fun c => filename.contains c) with
    | some c => some (.badChar c)
    | none =>
      if filename.contains '/' || filename.contains '\\' then some .slashInName
      else if 255 < filename.length then some .tooLong
      else if filename.getLast? = some '.' ∨ filename.getLast? = some ' ' then
        some .trailingDotSpace
      else if (fileReservedNames.map pyUpper).contains (pyUpper (splitextBase filename)) then
        some .reservedName
      else none

/-- Django `StoredFile.objects.get(pk=..., owner=...)`. -/
def fileGetPkOwner (files : List FileRow) (pk owner : Nat) : Option FileRow :=
  match files.filter (fun r => r.pk == pk && r.owner == owner) with
  | [r] => some r
  | _ => none

/-- Django `Folder.objects.get(pk=..., owner=...)`. -/
def folderGetPkOwner (db : List Folder) (pk owner : Nat) : Option Folder :=
  match db.filter (fun f => f.pk == pk && f.owner == owner) with
  | [f] => some f
  | _ => none

/-- `old_storage_path.rsplit('/', 1)` followed by `directory + new_name`
(services.py 270-275): everything up to and including the last slash, then
the new name; the whole new name when no slash occurs. -/
def rsplitNewKey (old : Str) (new_name : Str) : Str :=
  let tail := old.reverse.takeWhile fun c => !(c == '/')
  if tail.length = old.length then new_name
  else old.take (old.length - tail.length) ++ new_name

/-- Translated from `StorageService.rename_file` (services.py 250-296):
fetch the row, verify the *old* key starts with the user's prefix, build
the new key, call `MinIOClient.rename_object` (copy + delete), and only
then write the metadata row — whose `save`/`full_clean` runs
`_validate_filename(new_name)` and `validate_unique`.  A `ValidationError`
there is caught and reported as failure; `transaction.atomic` rolls the
metadata back, but the object-store calls already happened.  (The size
bound re-checked by `clean` cannot change during a rename and is not
modelled.) -/
def rename_file_svc (files : List FileRow) (store : List Str) (user fid : Nat)
    (new_name : Str) : List FileRow × List Str × Bool :=
  match fileGetPkOwner files fid user with
  | none => (files, store, false)
  | some fo =>
    if ¬ startsWith (userKeyPfx user) fo.file_name = true then (files, store, false)
    else
      let newKey := rsplitNewKey fo.file_name new_name
      let r := rename_object store fo.file_name newKey
      if ¬ r.2.2 = true then (files, r.1, false)
      else
        match validate_filename new_name with
        | some _ => (files, r.1, false)
        | none =>
          if files.any fun g =>
              g.owner == fo.owner && g.folder == fo.folder &&
                g.original_name == new_name && !(g.pk == fo.pk) then
            (files, r.1, false)
          else
            (files.map fun g =>
              if g.pk == fo.pk then
                { g with original_name := new_name, file_name := newKey }
              else g,
             r.1, true)

/-- Translated from `StorageService.rename_folder` (services.py 100-139):
fetch the folder, call `MinIOClient.rename_folder` on the object store
first, then `Folder.rename` — which is where the new name is validated.
An error from `Folder.rename` is caught and reported as failure with the
metadata rolled back (`transaction.atomic`), while the object-store
changes stand. -/
def rename_folder_svc (folders : List Folder) (store : List Str) (user fid : Nat)
    (new_name : Str) : List Folder × List Str × Bool :=
  match folderGetPkOwner folders fid user with
  | none => (folders, store, false)
  | some f =>
    let r := minio_rename_folder store user (full_path f) new_name
    if ¬ r.2.2 = true then (folders, r.1, false)
    else
      match folder_rename folders f new_name with
      | .error _ => (folders, r.1, false)
      | .ok folders2 => (folders2, r.1, true)

/-! ### Claim C2 -/

def fileRow0 : FileRow := ⟨1, 1, none, "a.txt".data, "user-1-files/a.txt".data⟩

def files0 : List FileRow := [fileRow0]

def store0 : List Str := ["user-1-files/a.txt".data]

/-- C2 counterexample: renaming the file `a.txt` to the invalid name
`b:ad` fails — but only after `MinIOClient.rename_object` has already
copied the object to `user-1-files/b:ad` and deleted the old key
(services.py 279-289 call the adapter before any validation of the new
name, which happens inside `file_obj.save()`).  The metadata store is
rolled back, the object store is not: the two stores diverge on a pure
validation error, and the invalid name did reach the adapter. -/
theorem C2_counterexample :
    rename_file_svc files0 store0 1 1 ("b:ad".data) =
      (files0, ["user-1-files/b:ad".data], false) ∧
    (["user-1-files/b:ad".data] : List Str) ≠ store0 ∧
    validate_filename ("b:ad".data) = some (VErr.badChar ':') := by
  decide

/-- C2 (amended): for both rename operations an invalid new name does make
the call fail and leaves the metadata store unchanged (transaction
rollback) — but the failure is detected only at the metadata save step,
after the object-store copy/delete has been issued: invalid input does
reach the Object-Store Adapter, and on a validation error the object store
keeps the adapter's mutation, so the two stores end up in divergent
(partial) state. -/
theorem C2_validation_after_store_mutation :
    (∀ (files : List FileRow) (store : List Str) (user fid : Nat) (new_name : Str)
        (fo : FileRow) (e : VErr),
      fileGetPkOwner files fid user = some fo →
      startsWith (userKeyPfx user) fo.file_name = true →
      (rename_object store fo.file_name (rsplitNewKey fo.file_name new_name)).2.2 = true →
      validate_filename new_name = some e →
      rename_file_svc files store user fid new_name =
        (files, (rename_object store fo.file_name (rsplitNewKey fo.file_name new_name)).1,
         false)) ∧
    (∀ (folders : List Folder) (store : List Str) (user fid : Nat) (new_name : Str)
        (f : Folder) (e : VErr),
      folderGetPkOwner folders fid user = some f →
      (minio_rename_folder store user (full_path f) new_name).2.2 = true →
      validate_name new_name = some e →
      rename_folder_svc folders store user fid new_name =
        (folders, (minio_rename_folder store user (full_path f) new_name).1, false)) := by
  constructor
  · intro files store user fid new_name fo e hget hpfx hok hval
    simp only [rename_file_svc, hget]
    rw [if_neg (by simp [hpfx])]
    rw [if_neg (by simp [hok])]
    rw [hval]
  · intro folders store user fid new_name f e hget hok hval
    simp only [rename_folder_svc, hget]
    rw [if_neg (by simp [hok])]
    have hrn : folder_rename folders f new_name = .error e := by
      simp only [folder_rename, hval]
    rw [hrn]

/-- Witness for C2: the amended theorem's file branch applied at the
counterexample inputs. -/
theorem C2_validation_after_store_mutation_witness :
    rename_file_svc files0 store0 1 1 ("b:ad".data) =
      (files0,
       (rename_object store0 fileRow0.file_name
         (rsplitNewKey fileRow0.file_name ("b:ad".data))).1,
       false) :=
  C2_validation_after_store_mutation.1 files0 store0 1 1 ("b:ad".data) fileRow0
    (VErr.badChar ':') (by decide) (by decide) (by decide) (by decide)

/-! ### Upload (`StorageService.upload_files`) -/

/-- The combined state the upload path touches: the two metadata tables,
the object-store keys, and the next fresh primary keys. -/
structure St where
  folders : List Folder
  files : List FileRow
  objects : List Str
  nextFolderPk : Nat
  nextFilePk : Nat
deriving DecidableEq

/-- `os.path.basename` on a forward-slash path (upload paths are
normalized first). -/
def pyBasename (s : Str) : Str := (s.reverse.takeWhile fun c => !(c == '/')).reverse

/-- `os.path.dirname` on a forward-slash path. -/
def pyDirname (s : Str) : Str :=
  let b := pyBasename s
  if b.length = s.length then []
  else s.take (s.length - b.length - 1)

/-- The `materialized_path` a new row receives from its in-memory parent
(models.py 93-97). -/
def parentFull : Option Folder → Str
  | some p => full_path p
  | none => []

/-- Django `Folder.objects.create(...)` as invoked by
`find_or_create_by_path` (models.py 312-317): `save` recomputes
`materialized_path` from the in-memory parent (overriding the passed
value), runs `full_clean` (the pk-guarded cycle checks are vacuous for a
new row), inserts the row under a fresh pk, and — because a new row's
stored old path is `""` — runs the descendant cascade when the new path is
nonempty (models.py 85-87 with `_old_materialized_path = ""`). -/
def folderCreate (st : St) (user : Nat) (parent : Option Folder) (nm : Str) :
    Except VErr (St × Folder) :=
  let mp := parentFull parent
  let f : Folder := ⟨st.nextFolderPk, user, nm, parent.map (fun p => p.pk), mp⟩
  if 1000 < mp.length then .error .fieldOverflow
  else
    match validate_name nm with
    | some e => .error e
    | none =>
      if folderClash st.folders f then .error .uniqueClash
      else
        let folders1 := st.folders ++ [f]
        let folders2 := if mp ≠ [] then update_descendants_paths folders1 f [] else folders1
        .ok ({ st with folders := folders2, nextFolderPk := st.nextFolderPk + 1 }, f)

/-- The `for i, part in enumerate(parts)` loop of
`Folder.find_or_create_by_path` (models.py 301-318), over the remaining
indices: look up `(materialized_path = '/'.join(parts[:i]), name =
parts[i])`, creating the folder under the current parent when absent.  A
`ValidationError` raised by a create propagates (`none`), with the folders
created by earlier iterations kept — the loop runs in no transaction. -/
def focLoop (user : Nat) (parts : List Str) : List Nat → St → Option Folder →
    St × Option Folder
  | [], st, cur => (st, cur)
  | i :: rest, st, cur =>
    match folderGet st.folders user (joinSlash (parts.take i)) (parts.getD i []) with
    | some f => focLoop user parts rest st (some f)
    | none =>
      match folderCreate st user cur (parts.getD i []) with
      | .error _ => (st, none)
      | .ok (st2, f) => focLoop user parts rest st2 (some f)

/-- Translated from `Folder.find_or_create_by_path` (models.py 287-320). -/
def find_or_create_by_path (st : St) (user : Nat) (path : Str) : St × Option Folder :=
  match find_by_path st.folders user path with
  | some f => (st, some f)
  | none =>
    let parts := pathParts (normalize_path path)
    if parts = [] then (st, none)
    else focLoop user parts (List.range parts.length) st none

/-- The target folder of one uploaded file (services.py 199-201): the root
(`some none`) for an empty folder path, otherwise the resolved-or-created
folder's pk; `none` when the resolution raised. -/
def resolveTarget (st : St) (user : Nat) (folder_path : Str) : St × Option (Option Nat) :=
  if folder_path = [] then (st, some none)
  else
    let r := find_or_create_by_path st user folder_path
    match r.2 with
    | none => (r.1, none)
    | some f => (r.1, some (some f.pk))

/-- The tail of one upload iteration (services.py 203-224): reject when a
row with the same `(owner, folder, original_name)` exists (the per-file
error, `continue`); otherwise write the bytes under the key
`user-<id>-files/<rel_path>` and append the metadata row carrying exactly
`file_name` — no name disambiguation of any kind happens here. -/
def uploadInto (st : St) (user : Nat) (tgt : Option Nat) (file_name rel_path : Str) :
    St × Bool :=
  if st.files.any fun r =>
      r.owner == user && r.folder == tgt && r.original_name == file_name then
    (st, false)
  else
    ({ st with
        files := st.files ++
          [⟨st.nextFilePk, user, tgt, file_name, userKeyPfx user ++ rel_path⟩],
        objects := addKey st.objects (userKeyPfx user ++ rel_path),
        nextFilePk := st.nextFilePk + 1 },
     true)

/-- One iteration of `StorageService.upload_files` (services.py 190-229):
normalize the relative path, split it, validate the file name, resolve or
create the folder chain, then `uploadInto`.  The `Bool` is whether
`uploaded_count` was incremented (`false` = one per-file error was
appended). -/
def uploadOne (st : St) (user : Nat) (rel_path0 : Str) : St × Bool :=
  let rel_path := normalize_path rel_path0
  let folder_path := pyDirname rel_path
  let file_name := pyBasename rel_path
  match validate_filename file_name with
  | some _ => (st, false)
  | none =>
    let r := resolveTarget st user folder_path
    match r.2 with
    | none => (r.1, false)
    | some tgt => uploadInto r.1 user tgt file_name rel_path

/-- Translated from `StorageService.upload_files` (services.py 181-231):
process the relative paths in order; returns the final state, the
`uploaded_count`, and the number of per-file errors appended. -/
def upload_files : St → Nat → List Str → St × Nat × Nat
  | st, _, [] => (st, 0, 0)
  | st, user, p :: rest =>
    let r1 := uploadOne st user p
    let r2 := upload_files r1.1 user rest
    (r2.1, (if r1.2 then 1 else 0) + r2.2.1, (if r1.2 then 0 else 1) + r2.2.2)

/-! ### Claim C9 -/

theorem folderCreate_files {st : St} {user : Nat} {p : Option Folder} {nm : Str}
    {st2 : St} {f : Folder} (h : folderCreate st user p nm = .ok (st2, f)) :
    st2.files = st.files := by
  simp only [folderCreate] at h
  split at h
  · exact absurd h (by simp)
  · split at h
    · exact absurd h (by simp)
    · split at h
      · exact absurd h (by simp)
      · injection h with hpair
        injection hpair with hs hf
        rw [← hs]

theorem focLoop_files (user : Nat) (parts : List Str) :
    ∀ (is : List Nat) (st : St) (cur : Option Folder),
      (focLoop user parts is st cur).1.files = st.files
  | [], _, _ => rfl
  | i :: rest, st, cur => by
    simp only [focLoop]
    cases hg : folderGet st.folders user (joinSlash (parts.take i)) (parts.getD i []) with
    | some f => exact focLoop_files user parts rest st (some f)
    | none =>
      cases hc : folderCreate st user cur (parts.getD i []) with
      | error e => rfl
      | ok pr =>
        obtain ⟨st2, f⟩ := pr
        rw [focLoop_files user parts rest st2 (some f)]
        exact folderCreate_files hc

theorem find_or_create_files (st : St) (user : Nat) (path : Str) :
    (find_or_create_by_path st user path).1.files = st.files := by
  unfold find_or_create_by_path
  cases find_by_path st.folders user path with
  | some f => rfl
  | none =>
    by_cases hp : pathParts (normalize_path path) = []
    · simp [hp]
    · simp only [if_neg hp]
      exact focLoop_files user _ _ st none

theorem resolveTarget_files (st : St) (user : Nat) (fp : Str) :
    (resolveTarget st user fp).1.files = st.files := by
  unfold resolveTarget
  by_cases hfp : fp = []
  · simp only [if_pos hfp]
  · simp only [if_neg hfp]
    cases (find_or_create_by_path st user fp).2 with
    | none => exact find_or_create_files st user fp
    | some f => exact find_or_create_files st user fp

theorem uploadOne_files {st : St} {user : Nat} {rp : Str} {r : FileRow}
    (h : r ∈ (uploadOne st user rp).1.files) :
    r ∈ st.files ∨ r.original_name = pyBasename (normalize_path rp) := by
  simp only [uploadOne] at h
  cases hv : validate_filename (pyBasename (normalize_path rp)) with
  | some e =>
    rw [hv] at h
    exact Or.inl h
  | none =>
    rw [hv] at h
    have hrt := resolveTarget_files st user (pyDirname (normalize_path rp))
    cases ht : (resolveTarget st user (pyDirname (normalize_path rp))).2 with
    | none =>
      rw [ht] at h
      have h2 : r ∈ (resolveTarget st user (pyDirname (normalize_path rp))).1.files := h
      rw [hrt] at h2
      exact Or.inl h2
    | some tgt =>
      rw [ht] at h
      have h2 : r ∈ (uploadInto (resolveTarget st user (pyDirname (normalize_path rp))).1
          user tgt (pyBasename (normalize_path rp)) (normalize_path rp)).1.files := h
      unfold uploadInto at h2
      split at h2
      · rw [hrt] at h2
        exact Or.inl h2
      · have h3 : r ∈ (resolveTarget st user (pyDirname (normalize_path rp))).1.files ++
            [⟨(resolveTarget st user (pyDirname (normalize_path rp))).1.nextFilePk, user,
              tgt, pyBasename (normalize_path rp), userKeyPfx user ++ normalize_path rp⟩] := h2
        simp only [List.mem_append, List.mem_singleton] at h3
        rcases h3 with h3 | rfl
        · rw [hrt] at h3
          exact Or.inl h3
        · exact Or.inr rfl

/-- C9 (confirmed): on the upload path a file whose target
`(owner, folder, original_name)` already has a record is rejected — the
state is returned untouched and the success flag is false, so the loop
appends a per-file error and does not increment `uploaded_count` — and no
`"(n)"` auto-suffix is ever applied: every file row present after
`upload_files` either predates the call or carries exactly the basename of
one of the uploaded relative paths (the auto-suffixing constructor
`StoredFile.create_in_folder`, models.py 645-670, has no caller on the
upload path, which instead builds the row directly at services.py
213-222). -/
theorem C9_upload_duplicate_rejected_no_suffix :
    (∀ (st : St) (user : Nat) (rp : Str) (tgt : Option Nat),
      validate_filename (pyBasename (normalize_path rp)) = none →
      resolveTarget st user (pyDirname (normalize_path rp)) = (st, some tgt) →
      (st.files.any fun r => r.owner == user && r.folder == tgt &&
        r.original_name == pyBasename (normalize_path rp)) = true →
      uploadOne st user rp = (st, false)) ∧
    (∀ (st : St) (user : Nat) (rp : Str) (rest : List Str),
      uploadOne st user rp = (st, false) →
      upload_files st user (rp :: rest) =
        ((upload_files st user rest).1, (upload_files st user rest).2.1,
         1 + (upload_files st user rest).2.2)) ∧
    (∀ (st : St) (user : Nat) (rps : List Str) (r : FileRow),
      r ∈ (upload_files st user rps).1.files →
      r ∈ st.files ∨ ∃ rp ∈ rps, r.original_name = pyBasename (normalize_path rp)) := by
  refine ⟨?_, ?_, ?_⟩
  · intro st user rp tgt hval hres hdup
    simp only [uploadOne, hval, hres]
    unfold uploadInto
    rw [if_pos hdup]
  · intro st user rp rest h
    simp only [upload_files, h]
    simp
  · intro st user rps
    induction rps generalizing st with
    | nil => intro r h; exact Or.inl h
    | cons p rest ih =>
      intro r h
      simp only [upload_files] at h
      rcases ih (uploadOne st user p).1 r h with h2 | ⟨rp, hrp, hname⟩
      · rcases uploadOne_files h2 with h3 | h3
        · exact Or.inl h3
        · exact Or.inr ⟨p, by simp, h3⟩
      · exact Or.inr ⟨rp, List.mem_cons_of_mem _ hrp, hname⟩

/-- The duplicate-upload scenario for the C9 witness: one file `f.txt`
already stored at the root for user 1. -/
def stDup : St :=
  ⟨[], [⟨1, 1, none, "f.txt".data, "user-1-files/f.txt".data⟩],
   ["user-1-files/f.txt".data], 10, 2⟩

/-- Witness for C9: uploading `f.txt` again for user 1 is rejected with
the state unchanged. -/
theorem C9_upload_duplicate_rejected_no_suffix_witness :
    uploadOne stDup 1 ("f.txt".data) = (stDup, false) :=
  C9_upload_duplicate_rejected_no_suffix.1 stDup 1 ("f.txt".data) none
    (by decide) (by decide) (by decide)
